import Mathlib

/-!
Verification of the badapple-pdf encoder (src/encoder/src/main.rs).

The Rust program converts a video into a 1-bit delta-coded blob and embeds
it, together with an audio file, as named attachments in a PDF. This file
gives a shallow embedding of the encoder pipeline (thresholding, MSB-first
bit packing, XOR delta coding, blob header assembly) and of the PDF object
graph construction, and proves the testable properties of the spec.

Bytes and samples are modelled as natural numbers (values below 256 in the
program); machine-integer wrap is made explicit where headers are encoded
(mod 256 per byte). The f32 frame rate is modelled as a rational number;
for every concrete rate used in the claims the f32 computation and the
rational computation agree exactly.
-/

namespace BadApplePdf

/-- Indexing a byte list, out of range reads 0 (all list accesses in the
source are in range; the characterisation lemmas track the bounds). -/
def nth (l : List ℕ) (i : ℕ) : ℕ := l.getD i 0

theorem nth_nil (i : ℕ) : nth [] i = 0 := rfl

theorem nth_cons_zero (a : ℕ) (l : List ℕ) : nth (a :: l) 0 = a := rfl

theorem nth_cons_succ (a : ℕ) (l : List ℕ) (i : ℕ) :
    nth (a :: l) (i + 1) = nth l i := rfl

theorem nth_replicate (n i : ℕ) : nth (List.replicate n 0) i = 0 := by
  induction n generalizing i with
  | zero => rfl
  | succ m ih =>
    cases i with
    | zero => rfl
    | succ k => simpa [List.replicate_succ, nth_cons_succ] using ih k

theorem nth_of_length_le (l : List ℕ) (i : ℕ) (h : l.length ≤ i) :
    nth l i = 0 := by
  induction l generalizing i with
  | nil => rfl
  | cons a t ih =>
    cases i with
    | zero => simp at h
    | succ k =>
      rw [nth_cons_succ]
      exact ih k (by simpa using h)

theorem nth_set_self (l : List ℕ) (i v : ℕ) (h : i < l.length) :
    nth (l.set i v) i = v := by
  induction l generalizing i with
  | nil => simp at h
  | cons a t ih =>
    cases i with
    | zero => rfl
    | succ k =>
      rw [List.set_cons_succ, nth_cons_succ]
      exact ih k (by simpa using h)

theorem nth_set_ne (l : List ℕ) (i j v : ℕ) (h : j ≠ i) :
    nth (l.set i v) j = nth l j := by
  induction l generalizing i j with
  | nil => rfl
  | cons a t ih =>
    cases i with
    | zero =>
      cases j with
      | zero => exact absurd rfl h
      | succ k => rfl
    | succ m =>
      cases j with
      | zero => rfl
      | succ k =>
        rw [List.set_cons_succ, nth_cons_succ, nth_cons_succ]
        exact ih m k (fun hk => h (by omega))

/-- One step of the packing loop body of `pack_bits` in main.rs:
`if b != 0 { out[i / 8] |= 1 << (7 - (i % 8)); }`. -/
def packStep (out : List ℕ) (ib : ℕ × ℕ) : List ℕ :=
  if ib.2 ≠ 0 then
    out.set (ib.1 / 8) (nth out (ib.1 / 8) ||| 1 <<< (7 - ib.1 % 8))
  else out

/-- `pack_bits` from main.rs: MSB-first bit packing of a 0/1 frame into
`ceil(n/8)` bytes, starting from an all-zero buffer. -/
def pack_bits (bits01 : List ℕ) : List ℕ :=
  bits01.enum.foldl packStep (List.replicate ((bits01.length + 7) / 8) 0)

theorem length_foldl_packStep (ps : List (ℕ × ℕ)) (out : List ℕ) :
    (ps.foldl packStep out).length = out.length := by
  induction ps generalizing out with
  | nil => rfl
  | cons p t ih =>
    rw [List.foldl_cons, ih]
    unfold packStep
    split <;> simp

theorem length_pack_bits (bits01 : List ℕ) :
    (pack_bits bits01).length = (bits01.length + 7) / 8 := by
  unfold pack_bits
  rw [length_foldl_packStep, List.length_replicate]

/-- The bits contributed to output byte `j` by the tail of the loop that
processes bit list `bs` starting at global bit index `k`. -/
def packMask (k : ℕ) (bs : List ℕ) (j : ℕ) : ℕ :=
  match bs with
  | [] => 0
  | b :: rest =>
    (if b ≠ 0 ∧ k / 8 = j then 2 ^ (7 - k % 8) else 0) ||| packMask (k + 1) rest j

theorem packMask_nil (k j : ℕ) : packMask k [] j = 0 := rfl

theorem packMask_cons (k j b : ℕ) (rest : List ℕ) :
    packMask k (b :: rest) j =
      (if b ≠ 0 ∧ k / 8 = j then 2 ^ (7 - k % 8) else 0) ||| packMask (k + 1) rest j := rfl

theorem foldl_packStep_nth (bs : List ℕ) (k : ℕ) (out : List ℕ) (j : ℕ)
    (hidx : ∀ i, i < bs.length → (k + i) / 8 < out.length) :
    nth ((bs.enumFrom k).foldl packStep out) j = nth out j ||| packMask k bs j := by
  induction bs generalizing k out with
  | nil => simp [packMask_nil]
  | cons b rest ih =>
    rw [List.enumFrom_cons, List.foldl_cons]
    have hlen : (packStep out (k, b)).length = out.length := by
      unfold packStep; split <;> simp
    have hrec := ih (k + 1) (packStep out (k, b)) (by
      intro i hi
      rw [hlen]
      have := hidx (i + 1) (by simpa using Nat.succ_lt_succ hi)
      simpa [Nat.add_assoc, Nat.add_comm 1 i] using this)
    rw [hrec, packMask_cons]
    by_cases hb : b = 0
    · have hstep : packStep out (k, b) = out := by simp [packStep, hb]
      rw [hstep, if_neg (by simp [hb]), Nat.zero_or]
    · have hstep : packStep out (k, b)
          = out.set (k / 8) (nth out (k / 8) ||| 2 ^ (7 - k % 8)) := by
        simp [packStep, hb, Nat.one_shiftLeft]
      rw [hstep]
      by_cases hj : j = k / 8
      · subst hj
        rw [nth_set_self _ _ _ (by simpa using hidx 0 (by simp)),
          if_pos ⟨hb, rfl⟩, Nat.or_assoc]
      · rw [nth_set_ne _ _ _ _ hj, if_neg (fun hc => hj hc.2.symm), Nat.zero_or]

theorem testBit_packMask (bs : List ℕ) (k j r : ℕ) (hr : r < 8) :
    (packMask k bs j).testBit (7 - r) = true ↔
      (k ≤ 8 * j + r ∧ 8 * j + r < k + bs.length ∧ nth bs (8 * j + r - k) ≠ 0) := by
  induction bs generalizing k with
  | nil =>
    rw [packMask_nil]
    simp only [Nat.zero_testBit, Bool.false_eq_true, List.length_nil, false_iff]
    rintro ⟨h1, h2, h3⟩
    omega
  | cons b rest ih =>
    rw [packMask_cons, Nat.testBit_lor]
    have hsingle : ((if b ≠ 0 ∧ k / 8 = j then 2 ^ (7 - k % 8) else 0).testBit (7 - r)
        = true) ↔ (b ≠ 0 ∧ k = 8 * j + r) := by
      split
      · rename_i hc
        rw [Nat.testBit_two_pow]
        simp only [decide_eq_true_eq]
        constructor
        · intro h
          refine ⟨hc.1, ?_⟩
          have hc2 := hc.2
          omega
        · rintro ⟨-, hk⟩
          omega
      · rename_i hc
        simp only [Nat.zero_testBit, Bool.false_eq_true, false_iff]
        rintro ⟨hb, hk⟩
        exact hc ⟨hb, by omega⟩
    rw [Bool.or_eq_true, hsingle, ih (k + 1)]
    simp only [List.length_cons]
    constructor
    · rintro (⟨hb, hk⟩ | ⟨h1, h2, h3⟩)
      · refine ⟨by omega, by omega, ?_⟩
        have he : 8 * j + r - k = 0 := by omega
        rw [he, nth_cons_zero]
        exact hb
      · refine ⟨by omega, by omega, ?_⟩
        have he : 8 * j + r - k = (8 * j + r - (k + 1)) + 1 := by omega
        rw [he, nth_cons_succ]
        exact h3
    · rintro ⟨h1, h2, h3⟩
      by_cases hk : k = 8 * j + r
      · left
        have he : 8 * j + r - k = 0 := by omega
        rw [he, nth_cons_zero] at h3
        exact ⟨h3, hk⟩
      · right
        refine ⟨by omega, by omega, ?_⟩
        have he : 8 * j + r - k = (8 * j + r - (k + 1)) + 1 := by omega
        rw [he, nth_cons_succ] at h3
        exact h3

/-- Modelled from the spec: the decoder-side bit accessor of §3 (the
player.js getBit convention is not part of src/): bit `i` lives in byte
`i / 8` at position `7 - (i % 8)`. -/
def getBit (packed : List ℕ) (i : ℕ) : ℕ :=
  (nth packed (i / 8) >>> (7 - i % 8)) &&& 1

/-- Modelled from the spec: unpacking a packed frame with the original
length `n`, discarding the padding bits. -/
def unpack_bits (packed : List ℕ) (n : ℕ) : List ℕ :=
  (List.range n).map (fun i => getBit packed i)

theorem getBit_eq_testBit (packed : List ℕ) (i : ℕ) :
    getBit packed i = if (nth packed (i / 8)).testBit (7 - i % 8) then 1 else 0 := by
  unfold getBit
  rw [Nat.and_one_is_mod, Nat.shiftRight_eq_div_pow, Nat.testBit_to_div_mod]
  have h2 : nth packed (i / 8) / 2 ^ (7 - i % 8) % 2 < 2 := Nat.mod_lt _ (by omega)
  split
  · rename_i h
    simp only [decide_eq_true_eq] at h
    omega
  · rename_i h
    simp only [decide_eq_true_eq] at h
    omega

theorem nth_pack_bits (bits01 : List ℕ) (j : ℕ) :
    nth (pack_bits bits01) j = packMask 0 bits01 j := by
  unfold pack_bits
  rw [List.enum_eq_enumFrom,
    foldl_packStep_nth _ _ _ _ (by
      intro i hi
      rw [List.length_replicate]
      omega),
    nth_replicate, Nat.zero_or]

theorem getBit_pack_bits (bits01 : List ℕ) (i : ℕ) (hi : i < bits01.length) :
    getBit (pack_bits bits01) i = if nth bits01 i ≠ 0 then 1 else 0 := by
  rw [getBit_eq_testBit, nth_pack_bits]
  have hr : i % 8 < 8 := Nat.mod_lt _ (by omega)
  have hchar := testBit_packMask bits01 0 (i / 8) (i % 8) hr
  have hi8 : 8 * (i / 8) + i % 8 = i := by omega
  rw [hi8] at hchar
  by_cases hb : nth bits01 i ≠ 0
  · rw [if_pos (hchar.mpr ⟨by omega, by omega, hb⟩), if_pos hb]
  · rw [if_neg hb]
    rw [if_neg ?_]
    intro hc
    exact hb (hchar.mp hc).2.2

theorem getBit_pack_bits_padding (bits01 : List ℕ) (i : ℕ)
    (hi : bits01.length ≤ i) :
    getBit (pack_bits bits01) i = 0 := by
  rw [getBit_eq_testBit, nth_pack_bits]
  have hr : i % 8 < 8 := Nat.mod_lt _ (by omega)
  have hchar := testBit_packMask bits01 0 (i / 8) (i % 8) hr
  have hi8 : 8 * (i / 8) + i % 8 = i := by omega
  rw [hi8] at hchar
  rw [if_neg ?_]
  intro hc
  have := (hchar.mp hc).2.1
  omega

theorem eq_of_nth_eq (l1 l2 : List ℕ) (hlen : l1.length = l2.length)
    (h : ∀ i, i < l1.length → nth l1 i = nth l2 i) : l1 = l2 := by
  induction l1 generalizing l2 with
  | nil =>
    cases l2 with
    | nil => rfl
    | cons b t => simp at hlen
  | cons a t ih =>
    cases l2 with
    | nil => simp at hlen
    | cons b s =>
      have h0 := h 0 (by simp)
      rw [nth_cons_zero, nth_cons_zero] at h0
      subst h0
      congr 1
      refine ih s (by simpa using hlen) (fun i hi => ?_)
      have := h (i + 1) (by simpa using Nat.succ_lt_succ hi)
      rwa [nth_cons_succ, nth_cons_succ] at this

theorem nth_unpack_bits (packed : List ℕ) (n i : ℕ) (hi : i < n) :
    nth (unpack_bits packed n) i = getBit packed i := by
  unfold unpack_bits nth
  rw [List.getD_eq_getElem?_getD, List.getElem?_map]
  rw [List.getElem?_range hi]
  rfl

theorem length_unpack_bits (packed : List ℕ) (n : ℕ) :
    (unpack_bits packed n).length = n := by
  unfold unpack_bits
  rw [List.length_map, List.length_range]

/-- C2: pack_bits produces ceil(n/8) bytes with bit i stored MSB-first in
byte i/8 at bit position 7-(i mod 8), all padding bits beyond n are 0, and
unpacking with the original length n reproduces the original BitFrame. -/
theorem pack_bits_spec (bits01 : List ℕ)
    (h : ∀ b ∈ bits01, b = 0 ∨ b = 1) :
    (pack_bits bits01).length = (bits01.length + 7) / 8
    ∧ (∀ i, i < bits01.length → getBit (pack_bits bits01) i = nth bits01 i)
    ∧ (∀ i, bits01.length ≤ i → getBit (pack_bits bits01) i = 0)
    ∧ unpack_bits (pack_bits bits01) bits01.length = bits01 := by
  have hget : ∀ i, i < bits01.length →
      getBit (pack_bits bits01) i = nth bits01 i := by
    intro i hi
    rw [getBit_pack_bits bits01 i hi]
    have hmem : nth bits01 i ∈ bits01 := by
      unfold nth
      rw [List.getD_eq_getElem?_getD, List.getElem?_eq_getElem hi]
      exact List.getElem_mem hi
    rcases h _ hmem with h0 | h1
    · simp [h0]
    · simp [h1]
  refine ⟨length_pack_bits bits01, hget, getBit_pack_bits_padding bits01, ?_⟩
  refine eq_of_nth_eq _ _ (length_unpack_bits _ _) (fun i hi => ?_)
  rw [length_unpack_bits] at hi
  rw [nth_unpack_bits _ _ _ hi, hget i hi]

/-- Witness for C2 at a concrete 3-bit frame. -/
theorem pack_bits_spec_witness :
    (∀ b ∈ [1, 0, 1], b = 0 ∨ b = 1)
    ∧ ((pack_bits [1, 0, 1]).length = ([1, 0, 1].length + 7) / 8
       ∧ (∀ i, i < [1, 0, 1].length →
           getBit (pack_bits [1, 0, 1]) i = nth [1, 0, 1] i)
       ∧ (∀ i, [1, 0, 1].length ≤ i → getBit (pack_bits [1, 0, 1]) i = 0)
       ∧ unpack_bits (pack_bits [1, 0, 1]) [1, 0, 1].length = [1, 0, 1]) :=
  ⟨by decide, pack_bits_spec [1, 0, 1] (by decide)⟩

/-- `xor_bytes_inplace` from main.rs: XOR `src` into `dst` elementwise over
the zipped prefix; elements of `dst` beyond the length of `src` are kept. -/
def xor_bytes_inplace (dst src : List ℕ) : List ℕ :=
  List.zipWith (fun d s => d ^^^ s) dst src ++ dst.drop src.length

theorem length_xor_bytes_inplace (dst src : List ℕ) :
    (xor_bytes_inplace dst src).length = dst.length := by
  unfold xor_bytes_inplace
  rw [List.length_append, List.length_zipWith, List.length_drop]
  omega

theorem xor_bytes_inplace_eq_zipWith (dst src : List ℕ)
    (h : dst.length ≤ src.length) :
    xor_bytes_inplace dst src = List.zipWith (fun d s => d ^^^ s) dst src := by
  unfold xor_bytes_inplace
  rw [List.drop_eq_nil_of_le h, List.append_nil]

theorem xor_bytes_inplace_cancel (a b : List ℕ) (h : a.length = b.length) :
    xor_bytes_inplace a (xor_bytes_inplace a b) = b := by
  rw [xor_bytes_inplace_eq_zipWith a b (by omega)] at *
  rw [xor_bytes_inplace_eq_zipWith a _ (by rw [List.length_zipWith]; omega)]
  induction a generalizing b with
  | nil =>
    cases b with
    | nil => rfl
    | cons y t => simp at h
  | cons x s ih =>
    cases b with
    | nil => simp at h
    | cons y t =>
      simp only [List.zipWith_cons_cons]
      rw [Nat.xor_cancel_left]
      exact congrArg (y :: ·) (ih t (by simpa using h))

/-- The delta-emitting branch of the encoder loop (main.rs lines 111-119)
on the tail of the frame sequence: the first argument is the running
`prev_packed` state, always the last raw packed frame. -/
def delta_encode_go (prev : List ℕ) : List (List ℕ) → List (List ℕ)
  | [] => []
  | q :: qs => xor_bytes_inplace prev q :: delta_encode_go q qs

/-- The body emitted by the encoder loop for packed frames P0..Pk: P0
verbatim, then the XOR of each frame against its predecessor. -/
def delta_encode_body : List (List ℕ) → List (List ℕ)
  | [] => []
  | p :: ps => p :: delta_encode_go p ps

/-- The running `prev_packed` buffer after the loop consumes the given
packed frames (the `copy_from_slice` updates in main.rs lines 113 and 118). -/
def delta_encode_state (prev : List ℕ) : List (List ℕ) → List ℕ
  | [] => prev
  | q :: qs => delta_encode_state q qs

/-- Modelled from the spec: the decoder recurrence
`frame[i] = frame[i-1] XOR diff[i]` applied to the diffs after the first
body frame. -/
def delta_decode_go (prev : List ℕ) : List (List ℕ) → List (List ℕ)
  | [] => []
  | d :: ds =>
    xor_bytes_inplace prev d :: delta_decode_go (xor_bytes_inplace prev d) ds

/-- Modelled from the spec: reconstruction with `frame[0] = body[0]` and
`frame[i] = frame[i-1] XOR diff[i]`. -/
def delta_decode_body : List (List ℕ) → List (List ℕ)
  | [] => []
  | b :: bs => b :: delta_decode_go b bs

theorem delta_go_roundtrip (qs : List (List ℕ)) (L : ℕ) :
    ∀ prev, prev.length = L → (∀ q ∈ qs, q.length = L) →
      delta_decode_go prev (delta_encode_go prev qs) = qs := by
  induction qs with
  | nil => intro prev _ _; rfl
  | cons q rest ih =>
    intro prev hprev hq
    have hqL : q.length = L := hq q (by simp)
    have hcur : xor_bytes_inplace prev (xor_bytes_inplace prev q) = q :=
      xor_bytes_inplace_cancel prev q (by omega)
    show xor_bytes_inplace prev (xor_bytes_inplace prev q)
          :: delta_decode_go (xor_bytes_inplace prev (xor_bytes_inplace prev q))
            (delta_encode_go q rest)
        = q :: rest
    rw [hcur]
    exact congrArg (q :: ·) (ih q hqL (fun p hp => hq p (by simp [hp])))

/-- Thresholding of one sample (main.rs line 106):
`if px <= threshold { 1 } else { 0 }`, so 1 means dark. -/
def threshold_bit (px threshold : ℕ) : ℕ := if px ≤ threshold then 1 else 0

/-- Thresholding a whole raw frame into a 0/1 BitFrame (main.rs 104-107). -/
def thresholdBits (frame : List ℕ) (threshold : ℕ) : List ℕ :=
  frame.map (fun px => threshold_bit px threshold)

/-- Rust f32 rounding: nearest integer, ties away from zero. -/
def rustRound (q : ℚ) : ℤ := if 0 ≤ q then ⌊q + 1 / 2⌋ else ⌈q - 1 / 2⌉

/-- The header fps field (main.rs line 73):
`(fps * 100.0).round().clamp(1.0, 65535.0) as u16`. -/
def fpsX100 (fps : ℚ) : ℕ :=
  (min (max (rustRound (fps * 100)) 1) 65535).toNat

/-- The frame rate passed to the external frame source (main.rs line 38):
a non-positive rate is replaced by 30 here and only here. -/
def ffmpeg_fps (fps : ℚ) : ℚ := if 0 < fps then fps else 30

/-- Little-endian bytes of a u16 value (`to_le_bytes`). -/
def u16_le (x : ℕ) : List ℕ := [x % 256, x / 256 % 256]

/-- Little-endian bytes of a u32 value (`to_le_bytes`). -/
def u32_le (x : ℕ) : List ℕ :=
  [x % 256, x / 256 % 256, x / 65536 % 256, x / 16777216 % 256]

/-- In-place overwrite of a byte range (`blob[6..10].copy_from_slice`). -/
def patchBytes (blob : List ℕ) (off : ℕ) (repl : List ℕ) : List ℕ :=
  blob.take off ++ repl ++ blob.drop (off + repl.length)

/-- The max-frames check at the top of the encoder loop (main.rs 82-86). -/
def reachedMax (max_frames : Option ℕ) (fc : ℕ) : Bool :=
  match max_frames with
  | some m => m ≤ fc
  | none => false

/-- The frame-reading loop of `encode_video_blob_via_ffmpeg` (main.rs
81-122) over a finite byte stream, with explicit fuel (one unit per
iteration; the wrapper passes more fuel than the loop can consume, so the
fuel never runs out). A frame is read only when `frame_sz` bytes remain;
a trailing short read leaves `read_total = 0` and exits the loop, which is
the `frame_sz = 0 ∨ stream.length < frame_sz` branch here. Returns the
emitted body bytes and the final frame count. -/
def encodeLoop (frame_sz threshold : ℕ) (max_frames : Option ℕ) :
    ℕ → List ℕ → List ℕ → ℕ → List ℕ × ℕ
  | 0, _, _, fc => ([], fc)
  | fuel + 1, stream, prev_packed, fc =>
    if reachedMax max_frames fc then ([], fc)
    else if frame_sz = 0 ∨ stream.length < frame_sz then ([], fc)
    else
      let packed := pack_bits (thresholdBits (stream.take frame_sz) threshold)
      let emitted := if fc = 0 then packed else xor_bytes_inplace prev_packed packed
      let rest := encodeLoop frame_sz threshold max_frames fuel
        (stream.drop frame_sz) packed (fc + 1)
      (emitted ++ rest.1, rest.2)

/-- `encode_video_blob_via_ffmpeg` from main.rs, with the external ffmpeg
process replaced by the raw grayscale byte stream it writes: header with
placeholder frame count, body from the loop, then the count patched into
bytes 6..10. -/
def encode_video_blob (stream : List ℕ) (w h : ℕ) (fps : ℚ) (threshold : ℕ)
    (max_frames : Option ℕ) : List ℕ :=
  let frame_sz := w * h
  let header := u16_le w ++ u16_le h ++ u16_le (fpsX100 fps) ++ u32_le 0
  let packed_len := (frame_sz + 7) / 8
  let res := encodeLoop frame_sz threshold max_frames (stream.length + 1) stream
    (List.replicate packed_len 0) 0
  patchBytes (header ++ res.1) 6 (u32_le res.2)

theorem encodeLoop_succ (frame_sz threshold : ℕ) (mf : Option ℕ) (fuel : ℕ)
    (stream prev : List ℕ) (fc : ℕ) :
    encodeLoop frame_sz threshold mf (fuel + 1) stream prev fc =
      if reachedMax mf fc then ([], fc)
      else if frame_sz = 0 ∨ stream.length < frame_sz then ([], fc)
      else
        let packed := pack_bits (thresholdBits (stream.take frame_sz) threshold)
        let emitted := if fc = 0 then packed else xor_bytes_inplace prev packed
        let rest := encodeLoop frame_sz threshold mf fuel
          (stream.drop frame_sz) packed (fc + 1)
        (emitted ++ rest.1, rest.2) := rfl

/-- The full frames available at the head of the byte stream, as read by
the loop in main.rs 88-101 (fuel as in `encodeLoop`). -/
def framesOf (frame_sz : ℕ) : ℕ → List ℕ → List (List ℕ)
  | 0, _ => []
  | fuel + 1, stream =>
    if frame_sz = 0 ∨ stream.length < frame_sz then []
    else stream.take frame_sz :: framesOf frame_sz fuel (stream.drop frame_sz)

theorem framesOf_succ (frame_sz fuel : ℕ) (stream : List ℕ) :
    framesOf frame_sz (fuel + 1) stream =
      if frame_sz = 0 ∨ stream.length < frame_sz then []
      else stream.take frame_sz :: framesOf frame_sz fuel (stream.drop frame_sz) := rfl

theorem encodeLoop_step (frame_sz threshold : ℕ) (mf : Option ℕ) (fuel : ℕ)
    (stream prev : List ℕ) (fc : ℕ) (hmax : reachedMax mf fc = false)
    (hbreak : ¬(frame_sz = 0 ∨ stream.length < frame_sz)) :
    encodeLoop frame_sz threshold mf (fuel + 1) stream prev fc =
      ((if fc = 0 then pack_bits (thresholdBits (stream.take frame_sz) threshold)
        else xor_bytes_inplace prev
          (pack_bits (thresholdBits (stream.take frame_sz) threshold)))
        ++ (encodeLoop frame_sz threshold mf fuel (stream.drop frame_sz)
            (pack_bits (thresholdBits (stream.take frame_sz) threshold))
            (fc + 1)).1,
       (encodeLoop frame_sz threshold mf fuel (stream.drop frame_sz)
          (pack_bits (thresholdBits (stream.take frame_sz) threshold))
          (fc + 1)).2) := by
  rw [encodeLoop_succ, hmax]
  rw [if_neg (by simp), if_neg hbreak]

theorem encodeLoop_go_join (frame_sz threshold : ℕ) :
    ∀ (fuel : ℕ) (stream prev : List ℕ) (fc : ℕ), 1 ≤ fc →
      (encodeLoop frame_sz threshold none fuel stream prev fc).1
        = (delta_encode_go prev ((framesOf frame_sz fuel stream).map
            (fun f => pack_bits (thresholdBits f threshold)))).flatten := by
  intro fuel
  induction fuel with
  | zero =>
    intro stream prev fc _
    simp [encodeLoop, framesOf, delta_encode_go]
  | succ n ih =>
    intro stream prev fc hfc
    rw [framesOf_succ]
    by_cases hbreak : frame_sz = 0 ∨ stream.length < frame_sz
    · rw [if_pos hbreak, encodeLoop_succ]
      have hmax : reachedMax none fc = false := rfl
      rw [hmax, if_neg (by simp), if_pos hbreak]
      simp [delta_encode_go]
    · rw [encodeLoop_step frame_sz threshold none n stream prev fc rfl hbreak,
        if_neg hbreak, if_neg (by omega : ¬fc = 0)]
      simp only [List.map_cons]
      show _ ++ _ = (xor_bytes_inplace prev _ :: delta_encode_go _ _).flatten
      rw [List.flatten_cons, ih _ _ (fc + 1) (by omega)]

theorem encodeLoop_body_join (frame_sz threshold fuel : ℕ)
    (stream prev : List ℕ) :
    (encodeLoop frame_sz threshold none fuel stream prev 0).1
      = (delta_encode_body ((framesOf frame_sz fuel stream).map
          (fun f => pack_bits (thresholdBits f threshold)))).flatten := by
  cases fuel with
  | zero => simp [encodeLoop, framesOf, delta_encode_body]
  | succ n =>
    rw [framesOf_succ]
    by_cases hbreak : frame_sz = 0 ∨ stream.length < frame_sz
    · rw [if_pos hbreak, encodeLoop_succ]
      have hmax : reachedMax none 0 = false := rfl
      rw [hmax, if_neg (by simp), if_pos hbreak]
      simp [delta_encode_body]
    · rw [encodeLoop_step frame_sz threshold none n stream prev 0 rfl hbreak,
        if_neg hbreak, if_pos rfl]
      simp only [List.map_cons]
      show _ ++ _ = (pack_bits _ :: delta_encode_go _ _).flatten
      rw [List.flatten_cons, encodeLoop_go_join frame_sz threshold n
        (stream.drop frame_sz) _ 1 (by omega)]

/-- C1: feeding packed frames P0..Pk through the encoder emits P0 verbatim
followed by the k XOR diffs, reconstruction by frame[0]=body[0] and
frame[i]=frame[i-1] XOR diff[i] recovers P0..Pk exactly, and the carried
state after each step is the last raw packed frame. -/
theorem delta_roundtrip (frames : List (List ℕ)) (L : ℕ)
    (h : ∀ p ∈ frames, p.length = L) :
    delta_decode_body (delta_encode_body frames) = frames
    ∧ (∀ prev, delta_encode_state prev frames = frames.getLastD prev)
    ∧ (∀ (frame_sz threshold fuel : ℕ) (stream prev : List ℕ),
        (encodeLoop frame_sz threshold none fuel stream prev 0).1
          = (delta_encode_body ((framesOf frame_sz fuel stream).map
              (fun f => pack_bits (thresholdBits f threshold)))).flatten) := by
  refine ⟨?_, ?_, fun fs t fuel stream prev =>
    encodeLoop_body_join fs t fuel stream prev⟩
  · cases frames with
    | nil => rfl
    | cons p ps =>
      show p :: delta_decode_go p (delta_encode_go p ps) = p :: ps
      rw [delta_go_roundtrip ps L p (h p (by simp))
        (fun q hq => h q (by simp [hq]))]
  · intro prev
    induction frames generalizing prev with
    | nil => rfl
    | cons q qs ih =>
      show delta_encode_state q qs = (q :: qs).getLastD prev
      rw [List.getLastD_cons]
      exact ih (fun p hp => h p (by simp [hp])) q

/-- Witness for C1 on two concrete 2-byte packed frames. -/
theorem delta_roundtrip_witness :
    (∀ p ∈ [[1, 2], [3, 4]], p.length = 2)
    ∧ (delta_decode_body (delta_encode_body [[1, 2], [3, 4]]) = [[1, 2], [3, 4]]
       ∧ (∀ prev, delta_encode_state prev [[1, 2], [3, 4]]
            = [[1, 2], [3, 4]].getLastD prev)
       ∧ (∀ (frame_sz threshold fuel : ℕ) (stream prev : List ℕ),
          (encodeLoop frame_sz threshold none fuel stream prev 0).1
            = (delta_encode_body ((framesOf frame_sz fuel stream).map
                (fun f => pack_bits (thresholdBits f threshold)))).flatten)) :=
  ⟨by decide, delta_roundtrip [[1, 2], [3, 4]] 2 (by decide)⟩

/-- C8: the thresholder maps a sample to 1 exactly when it is at most the
threshold (inclusive), and is monotone in the threshold. -/
theorem threshold_bit_spec (s T T1 T2 : ℕ) (h : T1 < T2) :
    (threshold_bit s T = 1 ↔ s ≤ T) ∧ threshold_bit s T1 ≤ threshold_bit s T2 := by
  constructor
  · unfold threshold_bit
    split
    · rename_i hs
      exact ⟨fun _ => hs, fun _ => rfl⟩
    · rename_i hs
      exact ⟨fun h0 => by omega, fun hc => absurd hc hs⟩
  · unfold threshold_bit
    split
    · rename_i hs
      rw [if_pos (by omega)]
    · omega

/-- Witness for C8 at sample 5 with thresholds 5, 4 and 6. -/
theorem threshold_bit_spec_witness :
    (4 < 6)
    ∧ ((threshold_bit 5 5 = 1 ↔ 5 ≤ 5)
       ∧ threshold_bit 5 4 ≤ threshold_bit 5 6) :=
  ⟨by decide, threshold_bit_spec 5 5 4 6 (by decide)⟩

theorem length_thresholdBits (frame : List ℕ) (t : ℕ) :
    (thresholdBits frame t).length = frame.length := by
  unfold thresholdBits
  rw [List.length_map]

theorem encodeLoop_body_length (frame_sz threshold : ℕ) (mf : Option ℕ) :
    ∀ (fuel : ℕ) (stream prev : List ℕ) (fc : ℕ),
      prev.length = (frame_sz + 7) / 8 →
      fc ≤ (encodeLoop frame_sz threshold mf fuel stream prev fc).2
      ∧ (encodeLoop frame_sz threshold mf fuel stream prev fc).1.length
          = ((encodeLoop frame_sz threshold mf fuel stream prev fc).2 - fc)
            * ((frame_sz + 7) / 8) := by
  intro fuel
  induction fuel with
  | zero => intro stream prev fc _; exact ⟨Nat.le_refl fc, by simp [encodeLoop]⟩
  | succ n ih =>
    intro stream prev fc hprev
    rw [encodeLoop_succ]
    by_cases hmax : reachedMax mf fc
    · rw [if_pos hmax]; exact ⟨Nat.le_refl fc, by simp⟩
    · rw [if_neg hmax]
      by_cases hbreak : frame_sz = 0 ∨ stream.length < frame_sz
      · rw [if_pos hbreak]; exact ⟨Nat.le_refl fc, by simp⟩
      · rw [if_neg hbreak]
        push_neg at hbreak
        have htake : (stream.take frame_sz).length = frame_sz := by
          rw [List.length_take]
          omega
        have hpacked :
            (pack_bits (thresholdBits (stream.take frame_sz) threshold)).length
              = (frame_sz + 7) / 8 := by
          rw [length_pack_bits, length_thresholdBits, htake]
        have hrec := ih (stream.drop frame_sz)
          (pack_bits (thresholdBits (stream.take frame_sz) threshold)) (fc + 1)
          hpacked
        simp only at hrec ⊢
        refine ⟨by omega, ?_⟩
        rw [List.length_append, hrec.2]
        have hemit :
            (if fc = 0 then pack_bits (thresholdBits (stream.take frame_sz) threshold)
             else xor_bytes_inplace prev
               (pack_bits (thresholdBits (stream.take frame_sz) threshold))).length
              = (frame_sz + 7) / 8 := by
          split
          · exact hpacked
          · rw [length_xor_bytes_inplace, hprev]
        rw [hemit]
        have hfc := hrec.1
        have hsub : (encodeLoop frame_sz threshold mf n (stream.drop frame_sz)
            (pack_bits (thresholdBits (stream.take frame_sz) threshold)) (fc + 1)).2 - fc
            = ((encodeLoop frame_sz threshold mf n (stream.drop frame_sz)
                (pack_bits (thresholdBits (stream.take frame_sz) threshold)) (fc + 1)).2
              - (fc + 1)) + 1 := by omega
        rw [hsub, Nat.succ_mul]
        omega

theorem encodeLoop_count (frame_sz threshold : ℕ) (hfs : 0 < frame_sz) :
    ∀ (fuel : ℕ) (stream prev : List ℕ) (fc : ℕ),
      stream.length < frame_sz * fuel →
      (encodeLoop frame_sz threshold none fuel stream prev fc).2
        = fc + stream.length / frame_sz := by
  intro fuel
  induction fuel with
  | zero => intro stream prev fc hlen; simp at hlen
  | succ n ih =>
    intro stream prev fc hlen
    rw [encodeLoop_succ]
    have hmax : reachedMax none fc = false := rfl
    rw [hmax, if_neg (by simp)]
    by_cases hbreak : frame_sz = 0 ∨ stream.length < frame_sz
    · rw [if_pos hbreak]
      rcases hbreak with h0 | hlt
      · omega
      · simp [Nat.div_eq_of_lt hlt]
    · rw [if_neg hbreak]
      push_neg at hbreak
      have hmul : frame_sz * (n + 1) = frame_sz * n + frame_sz := by ring
      rw [hmul] at hlen
      have hdroplen : (stream.drop frame_sz).length = stream.length - frame_sz := by
        rw [List.length_drop]
      have hrec := ih (stream.drop frame_sz)
        (pack_bits (thresholdBits (stream.take frame_sz) threshold)) (fc + 1)
        (by rw [hdroplen]; omega)
      simp only at hrec ⊢
      rw [hrec, hdroplen, Nat.div_eq_sub_div hfs hbreak.2]
      omega

theorem encode_video_blob_eq (stream : List ℕ) (w h threshold : ℕ) (fps : ℚ)
    (mf : Option ℕ) :
    encode_video_blob stream w h fps threshold mf
      = u16_le w ++ u16_le h ++ u16_le (fpsX100 fps)
        ++ u32_le (encodeLoop (w * h) threshold mf (stream.length + 1) stream
            (List.replicate ((w * h + 7) / 8) 0) 0).2
        ++ (encodeLoop (w * h) threshold mf (stream.length + 1) stream
            (List.replicate ((w * h + 7) / 8) 0) 0).1 := by
  unfold encode_video_blob patchBytes
  simp [u16_le, u32_le]

/-- C6: after finalization the header frame_count field agrees with the
body, the blob length is 10 + frame_count * ceil(width*height/8), and the
patched count is what the blob carries at bytes 6..10. -/
theorem blob_header_consistent (stream : List ℕ) (w h threshold : ℕ) (fps : ℚ)
    (mf : Option ℕ) :
    ∃ fc body,
      encode_video_blob stream w h fps threshold mf
        = u16_le w ++ u16_le h ++ u16_le (fpsX100 fps) ++ u32_le fc ++ body
      ∧ body.length = fc * ((w * h + 7) / 8)
      ∧ (encode_video_blob stream w h fps threshold mf).length
          = 10 + fc * ((w * h + 7) / 8) := by
  refine ⟨(encodeLoop (w * h) threshold mf (stream.length + 1) stream
      (List.replicate ((w * h + 7) / 8) 0) 0).2,
    (encodeLoop (w * h) threshold mf (stream.length + 1) stream
      (List.replicate ((w * h + 7) / 8) 0) 0).1,
    encode_video_blob_eq stream w h threshold fps mf, ?_, ?_⟩
  · have := (encodeLoop_body_length (w * h) threshold mf (stream.length + 1)
      stream (List.replicate ((w * h + 7) / 8) 0) 0 (by simp)).2
    simpa using this
  · rw [encode_video_blob_eq stream w h threshold fps mf]
    have := (encodeLoop_body_length (w * h) threshold mf (stream.length + 1)
      stream (List.replicate ((w * h + 7) / 8) 0) 0 (by simp)).2
    simp only [List.length_append, u16_le, u32_le, List.length_cons,
      List.length_nil, Nat.sub_zero] at *
    omega

theorem fpsX100_nonpos (fps : ℚ) (h : fps ≤ 0) : fpsX100 fps = 1 := by
  have hr : rustRound (fps * 100) ≤ 0 := by
    unfold rustRound
    split
    · rename_i hq
      have hq0 : fps * 100 = 0 := le_antisymm (by linarith) hq
      rw [hq0]
      have : ⌊(0 : ℚ) + 1 / 2⌋ = 0 := by
        rw [Int.floor_eq_iff]
        norm_num
      omega
    · have : (⌈fps * 100 - 1 / 2⌉ : ℤ) ≤ 0 := by
        rw [Int.ceil_le]
        push_cast
        linarith
      omega
  unfold fpsX100
  omega

theorem fpsX100_2997 : fpsX100 (2997 / 100) = 2997 := by
  have h1 : (2997 / 100 : ℚ) * 100 = 2997 := by norm_num
  have h2 : rustRound ((2997 : ℚ) / 100 * 100) = 2997 := by
    unfold rustRound
    rw [h1, if_pos (by norm_num)]
    rw [Int.floor_eq_iff]
    constructor
    · push_cast
      norm_num
    · push_cast
      norm_num
  unfold fpsX100
  rw [h2]
  rfl

/-- C3 counterexample: with rate 0 (non-positive) the header fps field of
the produced blob is 01 00, not the 3000 (B8 0B) the claim derives from a
30.0 default. -/
theorem fps_default_counterexample :
    ¬(((encode_video_blob [] 160 120 0 128 none).drop 4).take 2 = u16_le 3000) := by
  rw [encode_video_blob_eq, fpsX100_nonpos 0 le_rfl]
  simp only [u16_le, u32_le, List.cons_append, List.nil_append,
    List.drop_succ_cons, List.drop_zero, List.take_succ_cons, List.take_zero]
  decide

/-- C3 (amended): the 30.0 default for a non-positive rate applies only to
the rate passed to the external frame source; the header fps field is
computed from the supplied rate directly as round(rate*100) clamped to
[1,65535] little-endian, so a non-positive rate stores 1, not 3000. -/
theorem fps_field_amended (stream : List ℕ) (w h threshold : ℕ) (fps : ℚ)
    (mf : Option ℕ) (hfps : fps ≤ 0) :
    ((encode_video_blob stream w h fps threshold mf).drop 4).take 2 = u16_le 1
    ∧ ffmpeg_fps fps = 30 := by
  constructor
  · rw [encode_video_blob_eq, fpsX100_nonpos fps hfps]
    simp [u16_le, u32_le]
  · unfold ffmpeg_fps
    rw [if_neg (by linarith)]

/-- Witness for the amended C3 at rate 0. -/
theorem fps_field_amended_witness :
    ((0 : ℚ) ≤ 0)
    ∧ (((encode_video_blob [] 160 120 0 128 none).drop 4).take 2 = u16_le 1
       ∧ ffmpeg_fps 0 = 30) :=
  ⟨le_rfl, fps_field_amended [] 160 120 128 0 none le_rfl⟩

theorem blob_take10_concrete :
    (encode_video_blob (List.replicate 96000 0) 160 120 (2997 / 100) 128
        none).take 10
      = [160, 0, 120, 0, 181, 11, 5, 0, 0, 0] := by
  rw [encode_video_blob_eq]
  have h19200 : (160 : ℕ) * 120 = 19200 := by norm_num
  have hfc : (encodeLoop (160 * 120) 128 none
      ((List.replicate 96000 (0 : ℕ)).length + 1) (List.replicate 96000 0)
      (List.replicate ((160 * 120 + 7) / 8) 0) 0).2 = 5 := by
    rw [h19200]
    rw [encodeLoop_count 19200 128 (by norm_num) _ _ _ _
      (by rw [List.length_replicate]; norm_num)]
    rw [List.length_replicate]
  rw [hfc, fpsX100_2997]
  simp only [u16_le, u32_le, List.cons_append, List.nil_append,
    List.take_succ_cons, List.take_zero]

/-- C4 counterexample: at width 160, height 120, rate 29.97 and five full
frames, byte 4 of the blob is B5 (2997 = 0x0BB5), not the B9 the claim
states. -/
theorem header_exact_counterexample :
    ¬((encode_video_blob (List.replicate 96000 0) 160 120 (2997 / 100) 128
        none).take 10
      = [0xA0, 0x00, 0x78, 0x00, 0xB9, 0x0B, 0x05, 0x00, 0x00, 0x00]) := by
  rw [blob_take10_concrete]
  decide

/-- C4 (amended): for width 160, height 120, rate 29.97 and a source of
exactly five full frames, the first ten blob bytes are
A0 00 78 00 B5 0B 05 00 00 00 (2997 = 0x0BB5 little-endian). -/
theorem header_exact_amended :
    (encode_video_blob (List.replicate 96000 0) 160 120 (2997 / 100) 128
        none).take 10
      = [0xA0, 0x00, 0x78, 0x00, 0xB5, 0x0B, 0x05, 0x00, 0x00, 0x00] := by
  rw [blob_take10_concrete]

/-- C5: a source that ends mid-frame after two full frames yields a blob
with frame count 2 and a body of exactly two packed-frame lengths; the
trailing short frame is silently discarded. -/
theorem truncation_spec (w h threshold : ℕ) (fps : ℚ) (stream : List ℕ)
    (r : ℕ) (hr : 0 < r) (hrs : r < w * h)
    (hlen : stream.length = 2 * (w * h) + r) :
    ∃ body,
      encode_video_blob stream w h fps threshold none
        = u16_le w ++ u16_le h ++ u16_le (fpsX100 fps) ++ u32_le 2 ++ body
      ∧ body.length = 2 * ((w * h + 7) / 8) := by
  have hfs : 0 < w * h := by omega
  have hfuel : stream.length < (w * h) * (stream.length + 1) := by
    have := Nat.mul_le_mul_right (stream.length + 1) hfs
    omega
  have hfc : (encodeLoop (w * h) threshold none (stream.length + 1) stream
      (List.replicate ((w * h + 7) / 8) 0) 0).2 = 2 := by
    rw [encodeLoop_count (w * h) threshold hfs _ _ _ _ hfuel, hlen]
    have h2 : 2 * (w * h) + r = (w * h) * 2 + r := by ring
    rw [h2, Nat.mul_add_div hfs, Nat.div_eq_of_lt hrs]
  refine ⟨(encodeLoop (w * h) threshold none (stream.length + 1) stream
      (List.replicate ((w * h + 7) / 8) 0) 0).1, ?_, ?_⟩
  · rw [encode_video_blob_eq, hfc]
  · have hb := (encodeLoop_body_length (w * h) threshold none
      (stream.length + 1) stream (List.replicate ((w * h + 7) / 8) 0) 0
      (by simp)).2
    rw [hb, hfc]

/-- Witness for C5: frames of four bytes, a ten-byte stream (two full
frames and a two-byte partial third). -/
theorem truncation_spec_witness :
    ((0 : ℕ) < 2 ∧ 2 < 2 * 2
     ∧ ([0, 0, 0, 0, 255, 255, 255, 255, 9, 9] : List ℕ).length = 2 * (2 * 2) + 2)
    ∧ (∃ body,
        encode_video_blob [0, 0, 0, 0, 255, 255, 255, 255, 9, 9] 2 2 1 128 none
          = u16_le 2 ++ u16_le 2 ++ u16_le (fpsX100 1) ++ u32_le 2 ++ body
        ∧ body.length = 2 * ((2 * 2 + 7) / 8)) :=
  ⟨⟨by decide, by decide, by decide⟩,
    truncation_spec 2 2 128 1 [0, 0, 0, 0, 255, 255, 255, 255, 9, 9] 2
      (by decide) (by decide) (by decide)⟩

/-- C10: with width*height = 0 the reading loop exits on its first
iteration and the blob is exactly the ten-byte header with frame count 0. -/
theorem zero_size_blob (stream : List ℕ) (w h threshold : ℕ) (fps : ℚ)
    (mf : Option ℕ) (hwh : w * h = 0) :
    encode_video_blob stream w h fps threshold mf
      = u16_le w ++ u16_le h ++ u16_le (fpsX100 fps) ++ u32_le 0
    ∧ (encode_video_blob stream w h fps threshold mf).length = 10 := by
  have hloop : encodeLoop (w * h) threshold mf (stream.length + 1) stream
      (List.replicate ((w * h + 7) / 8) 0) 0 = ([], 0) := by
    rw [encodeLoop_succ]
    by_cases hmax : reachedMax mf 0
    · rw [if_pos hmax]
    · rw [if_neg hmax, if_pos (Or.inl hwh)]
  constructor
  · rw [encode_video_blob_eq, hloop]
    simp
  · rw [encode_video_blob_eq, hloop]
    simp [u16_le, u32_le]

/-- Witness for C10 at width 0, height 5, on a nonempty stream. -/
theorem zero_size_blob_witness :
    ((0 : ℕ) * 5 = 0)
    ∧ (encode_video_blob [1, 2, 3] 0 5 1 7 none
        = u16_le 0 ++ u16_le 5 ++ u16_le (fpsX100 1) ++ u32_le 0
       ∧ (encode_video_blob [1, 2, 3] 0 5 1 7 none).length = 10) :=
  ⟨rfl, zero_size_blob [1, 2, 3] 0 5 7 1 none rfl⟩

/-- Shallow model of the lopdf object values used by main.rs. -/
inductive PdfObject where
  | int (n : ℤ)
  | real (x : ℚ)
  | name (s : String)
  | str (s : String)
  | array (xs : List PdfObject)
  | dict (entries : List (String × PdfObject))
  | stream (entries : List (String × PdfObject)) (data : List ℕ)
  | ref (id : ℕ)

/-- Shallow model of an lopdf `Document`: object ids are handed out
sequentially by `new_object_id`, objects live in an id-keyed map. -/
structure PdfDocument where
  version : String
  maxId : ℕ
  objects : List (ℕ × PdfObject)
  trailer : List (String × PdfObject)

def pdfWithVersion (v : String) : PdfDocument :=
  { version := v, maxId := 0, objects := [], trailer := [] }

def new_object_id (doc : PdfDocument) : ℕ × PdfDocument :=
  (doc.maxId + 1, { doc with maxId := doc.maxId + 1 })

def pdfInsert (doc : PdfDocument) (id : ℕ) (obj : PdfObject) : PdfDocument :=
  { doc with objects := doc.objects ++ [(id, obj)] }

def pdfSetTrailer (doc : PdfDocument) (k : String) (obj : PdfObject) : PdfDocument :=
  { doc with trailer := doc.trailer ++ [(k, obj)] }

/-- `add_attachment` from main.rs: an EmbeddedFile stream holding the raw
payload, plus a Filespec carrying the name as both F and UF and pointing
at the stream through EF. Returns the Filespec id. -/
def add_attachment (doc : PdfDocument) (nm : String) (data : List ℕ)
    (mime : String) : ℕ × PdfDocument :=
  let ef := new_object_id doc
  let doc1 := pdfInsert ef.2 ef.1 (.stream
    [("Type", .name "EmbeddedFile"), ("Subtype", .name mime),
      ("Length", .int data.length)] data)
  let fs := new_object_id doc1
  let doc2 := pdfInsert fs.2 fs.1 (.dict
    [("Type", .name "Filespec"), ("F", .str nm), ("UF", .str nm),
      ("EF", .dict [("F", .ref ef.1)])])
  (fs.1, doc2)

/-- The page content stream text built by the format! call in `make_pdf`
(the f64 coordinates print without a fractional part). -/
def pageContent : String :=
  "q\n0.9 g\n156 360 300 100 re\nf\n0 g\n2 w\n156 360 300 100 re\nS\nBT\n/F1 36 Tf\n236 395 Td\n(START) Tj\nET\nQ\n"

def bytesOfString (s : String) : List ℕ := s.data.map Char.toNat

/-- `make_pdf` from main.rs up to (but not including) serialization to
disk: one page with a drawn START button and a Link annotation, the blob
and the audio attached as EmbeddedFiles, both listed under AF on the
catalog. -/
def make_pdf (start_url : String) (ba_raw au_raw : List ℕ) : PdfDocument :=
  let doc := pdfWithVersion "1.7"
  let catalog := new_object_id doc
  let pages := new_object_id catalog.2
  let page := new_object_id pages.2
  let font := new_object_id page.2
  let doc := pdfInsert font.2 font.1 (.dict
    [("Type", .name "Font"), ("Subtype", .name "Type1"),
      ("BaseFont", .name "Helvetica")])
  let ba := add_attachment doc "BA.bin" ba_raw "application/octet-stream"
  let au := add_attachment ba.2 "AU.ogg" au_raw "audio/ogg"
  let names := new_object_id au.2
  let doc := pdfInsert names.2 names.1 (.dict
    [("EmbeddedFiles", .dict
      [("Names", .array
        [.str "AU.ogg", .ref au.1, .str "BA.bin", .ref ba.1])])])
  let contents := new_object_id doc
  let doc := pdfInsert contents.2 contents.1 (.stream
    [("Length", .int (bytesOfString pageContent).length)]
    (bytesOfString pageContent))
  let annot := new_object_id doc
  let doc := pdfInsert annot.2 annot.1 (.dict
    [("Type", .name "Annot"), ("Subtype", .name "Link"),
      ("Rect", .array [.real 156, .real 360, .real 456, .real 460]),
      ("Border", .array [.int 0, .int 0, .int 0]),
      ("A", .dict [("S", .name "URI"), ("URI", .str start_url)])])
  let doc := pdfInsert doc page.1 (.dict
    [("Type", .name "Page"), ("Parent", .ref pages.1),
      ("MediaBox", .array [.int 0, .int 0, .int 612, .int 792]),
      ("Resources", .dict [("Font", .dict [("F1", .ref font.1)])]),
      ("Contents", .ref contents.1),
      ("Annots", .array [.ref annot.1])])
  let doc := pdfInsert doc pages.1 (.dict
    [("Type", .name "Pages"), ("Kids", .array [.ref page.1]),
      ("Count", .int 1)])
  let doc := pdfInsert doc catalog.1 (.dict
    [("Type", .name "Catalog"), ("Pages", .ref pages.1),
      ("Names", .ref names.1),
      ("AF", .array [.ref ba.1, .ref au.1])])
  pdfSetTrailer doc "Root" (.ref catalog.1)

def dictGet (entries : List (String × PdfObject)) (k : String) : Option PdfObject :=
  (entries.find? (fun e => e.1 == k)).map (fun e => e.2)

def getObject (doc : PdfDocument) (id : ℕ) : Option PdfObject :=
  (doc.objects.find? (fun e => e.1 == id)).map (fun e => e.2)

def asDict : PdfObject → Option (List (String × PdfObject))
  | .dict d => some d
  | _ => none

def asArray : PdfObject → Option (List PdfObject)
  | .array xs => some xs
  | _ => none

def asRef : PdfObject → Option ℕ
  | .ref id => some id
  | _ => none

def asStreamData : PdfObject → Option (List ℕ)
  | .stream _ data => some data
  | _ => none

def asStreamDict : PdfObject → Option (List (String × PdfObject))
  | .stream entries _ => some entries
  | _ => none

/-- Lookup in a PDF name tree Names array [key1, value1, key2, value2, ...]. -/
def namesLookup : List PdfObject → String → Option PdfObject
  | .str k :: v :: rest, nm => if k == nm then some v else namesLookup rest nm
  | _, _ => none

/-- The catalog dictionary, reached from the trailer Root reference. -/
def pdfCatalog (doc : PdfDocument) : Option (List (String × PdfObject)) := do
  let rootId ← asRef (← dictGet doc.trailer "Root")
  asDict (← getObject doc rootId)

/-- The Filespec dictionary of the named attachment, reached through the
EmbeddedFiles name tree of the catalog Names dictionary. -/
def attachmentFilespec (doc : PdfDocument) (nm : String) :
    Option (List (String × PdfObject)) := do
  let cat ← pdfCatalog doc
  let namesId ← asRef (← dictGet cat "Names")
  let namesDict ← asDict (← getObject doc namesId)
  let efTree ← asDict (← dictGet namesDict "EmbeddedFiles")
  let arr ← asArray (← dictGet efTree "Names")
  let fsId ← asRef (← namesLookup arr nm)
  asDict (← getObject doc fsId)

/-- The embedded byte payload of the named attachment. -/
def extractAttachment (doc : PdfDocument) (nm : String) : Option (List ℕ) := do
  let fs ← attachmentFilespec doc nm
  let ef ← asDict (← dictGet fs "EF")
  let efId ← asRef (← dictGet ef "F")
  asStreamData (← getObject doc efId)

/-- The declared media type of the named attachment. -/
def extractAttachmentMime (doc : PdfDocument) (nm : String) : Option PdfObject := do
  let fs ← attachmentFilespec doc nm
  let ef ← asDict (← dictGet fs "EF")
  let efId ← asRef (← dictGet ef "F")
  let sd ← asStreamDict (← getObject doc efId)
  dictGet sd "Subtype"

/-- The AF (associated files) array of the catalog. -/
def associatedFiles (doc : PdfDocument) : Option (List PdfObject) := do
  let cat ← pdfCatalog doc
  asArray (← dictGet cat "AF")

/-- The F (file name) entry of a Filespec given by reference. -/
def filespecName (doc : PdfDocument) (o : PdfObject) : Option PdfObject := do
  let fsId ← asRef o
  let fs ← asDict (← getObject doc fsId)
  dictGet fs "F"

/-- C7: for arbitrary blob bytes B and audio bytes A the document stores
each byte-for-byte as an embedded attachment stream, BA.bin as generic
binary and AU.ogg as audio/ogg, both registered by name in the
EmbeddedFiles collection and listed in the AF array of the catalog. -/
theorem attachment_fidelity (start_url : String) (B A : List ℕ) :
    extractAttachment (make_pdf start_url B A) "BA.bin" = some B
    ∧ extractAttachment (make_pdf start_url B A) "AU.ogg" = some A
    ∧ extractAttachmentMime (make_pdf start_url B A) "BA.bin"
        = some (.name "application/octet-stream")
    ∧ extractAttachmentMime (make_pdf start_url B A) "AU.ogg"
        = some (.name "audio/ogg")
    ∧ associatedFiles (make_pdf start_url B A) = some [.ref 6, .ref 8]
    ∧ filespecName (make_pdf start_url B A) (.ref 6) = some (.str "BA.bin")
    ∧ filespecName (make_pdf start_url B A) (.ref 8) = some (.str "AU.ogg") :=
  ⟨rfl, rfl, rfl, rfl, rfl, rfl, rfl⟩

def digitsToNat (cs : List Char) : ℕ :=
  cs.foldl (fun acc c => acc * 10 + (c.toNat - 48)) 0

/-- Model of Rust unsigned-integer parsing: optional plus sign, decimal
digits, value within the machine range. -/
def parseUNum (s : String) (bound : ℕ) : Option ℕ :=
  let cs := match s.data with
    | '+' :: rest => rest
    | cs => cs
  if cs.isEmpty then none
  else if cs.all Char.isDigit then
    if digitsToNat cs ≤ bound then some (digitsToNat cs) else none
  else none

/-- Model of Rust f32 parsing restricted to the plain decimal forms used
by the invocation surface (exponent notation, inf and nan are omitted;
no claim under verification depends on them). -/
def parseDecimalRat (s : String) : Option ℚ :=
  let signed : Bool × List Char := match s.data with
    | '-' :: rest => (true, rest)
    | '+' :: rest => (false, rest)
    | cs => (false, cs)
  let cs := signed.2
  let ip := cs.takeWhile Char.isDigit
  let rest := cs.dropWhile Char.isDigit
  let val : Option ℚ := match rest with
    | [] => if ip.isEmpty then none else some (digitsToNat ip : ℚ)
    | '.' :: frac =>
      if frac.all Char.isDigit ∧ ¬(ip.isEmpty ∧ frac.isEmpty) then
        some ((digitsToNat ip : ℚ) + (digitsToNat frac : ℚ) / 10 ^ frac.length)
      else none
    | _ => none
  val.map (fun v => if signed.1 then -v else v)

/-- The parsed invocation parameters returned by `parse_args` in main.rs. -/
structure CliArgs where
  video : String
  audio : String
  outPdf : String
  w : ℕ
  h : ℕ
  fps : ℚ
  threshold : ℕ
  max_frames : Option ℕ
  start_url : String

/-- `parse_args` from main.rs: `argv` includes the program name at index
0, so fewer than 10 entries means fewer than the 9 required positional
parameters; that prints the usage text and bails with an error. -/
def parse_args (argv : List String) : Except String CliArgs :=
  if argv.length < 10 then .error "not enough args"
  else
    match parseUNum (argv.getD 4 "") 65535, parseUNum (argv.getD 5 "") 65535,
      parseDecimalRat (argv.getD 6 ""), parseUNum (argv.getD 7 "") 255,
      parseUNum (argv.getD 8 "") 4294967295 with
    | some w, some h, some fps, some threshold, some mf =>
      .ok { video := argv.getD 1 "", audio := argv.getD 2 "",
            outPdf := argv.getD 3 "", w := w, h := h, fps := fps,
            threshold := threshold,
            max_frames := if mf = 0 then none else some mf,
            start_url := argv.getD 9 "" }
    | _, _, _, _, _ => .error "parse failure"

/-- `main` from main.rs with the external inputs (frame source bytes and
audio file bytes) passed explicitly: a parse error aborts before any
pipeline stage runs, otherwise the blob is encoded and the document built. -/
def main_result (argv : List String) (videoStream audioBytes : List ℕ) :
    Except String PdfDocument :=
  match parse_args argv with
  | .error e => .error e
  | .ok a => .ok (make_pdf a.start_url
      (encode_video_blob videoStream a.w a.h a.fps a.threshold a.max_frames)
      audioBytes)

/-- C9: with fewer than the 9 required positional parameters, argument
parsing reports the usage error and the run terminates with that error
before any later pipeline stage executes. -/
theorem parse_args_insufficient (argv : List String) (h : argv.length < 10) :
    parse_args argv = .error "not enough args"
    ∧ ∀ videoStream audioBytes : List ℕ,
        main_result argv videoStream audioBytes = .error "not enough args" := by
  have hp : parse_args argv = .error "not enough args" := by
    unfold parse_args
    rw [if_pos h]
  refine ⟨hp, fun vs ab => ?_⟩
  unfold main_result
  rw [hp]

/-- Witness for C9 on the empty argument vector. -/
theorem parse_args_insufficient_witness :
    (([] : List String).length < 10)
    ∧ (parse_args [] = .error "not enough args"
       ∧ ∀ videoStream audioBytes : List ℕ,
          main_result [] videoStream audioBytes = .error "not enough args") :=
  ⟨by decide, parse_args_insufficient [] (by decide)⟩

end BadApplePdf
